import Mathlib

/-!
Verification of the clip-interval planning and command-construction pipeline of
the Smart Video Clipper application (the `App` component: `processVideo`,
`generateClipName`, and the per-interval job loop).

Times are modelled as exact rationals (`ℚ`); the source works with JS numbers
but every comparison relevant here (`m > lastTime + 0.1`,
`remainder < remainderThreshold`, `current < duration`) is ordinary ordered
arithmetic.  The `while` loop of the fixed-interval planner is embedded with an
explicit fuel parameter; a termination theorem shows the canonical fuel
`⌈duration / clipDuration⌉` always suffices.
-/

namespace LoopVideo

/-- One clip interval `{start, end}` as pushed onto `intervals` by
`processVideo`.  The source field `end` is a reserved word in Lean, so it is
called `stop` here. -/
structure Interval where
  start : ℚ
  stop : ℚ
deriving DecidableEq, Repr

/-- The `trimSettings.autoFit` policy: `merge` or `discard`. -/
inductive AutoFit
  | merge
  | discard
deriving DecidableEq, Repr

/-- Marker-mode planning walk (`processVideo`, the `markers.length > 0`
branch): for each boundary `m` of the sorted list, an interval
`{lastTime, m}` is pushed when `m > lastTime + 0.1`, and the cursor
`lastTime` is set to `m` in every case. -/
def planMarkersAux : ℚ → List ℚ → List Interval
  | _, [] => []
  | lastTime, m :: rest =>
    if lastTime + 1/10 < m then ⟨lastTime, m⟩ :: planMarkersAux m rest
    else planMarkersAux m rest

/-- Marker-mode planner: `duration` is appended to the markers, the list is
sorted ascending (`[...markers, duration].sort((a, b) => a - b)`), and the
walk starts with `lastTime = 0`. -/
def planMarkers (duration : ℚ) (markers : List ℚ) : List Interval :=
  planMarkersAux 0 (List.insertionSort (· ≤ ·) (markers ++ [duration]))

/-- Fixed-interval planning loop (`processVideo`, the `else` branch), with
explicit fuel for the `while (current < duration)` loop.  Each iteration:
`end = min(current + clipDur, duration)`; `remainder = duration - end`; when
`0 < remainder < remainderThreshold` the `merge` policy extends `end` to
`duration` (push, then the loop exits since `current = duration`), and the
`discard` policy pushes the interval as computed and breaks; otherwise the
interval is pushed and the cursor advances, breaking once
`current >= duration`.  `none` means the fuel ran out before the loop
finished. -/
def planFixedAux (duration clipDur threshold : ℚ) (fit : AutoFit) :
    Nat → ℚ → Option (List Interval)
  | 0, _ => none
  | fuel + 1, current =>
    if current < duration then
      let e := min (current + clipDur) duration
      let remainder := duration - e
      if 0 < remainder ∧ remainder < threshold then
        match fit with
        | AutoFit.merge => some [⟨current, duration⟩]
        | AutoFit.discard => some [⟨current, e⟩]
      else if e < duration then
        (planFixedAux duration clipDur threshold fit fuel e).map (⟨current, e⟩ :: ·)
      else
        some [⟨current, e⟩]
    else
      some []

/-- The fixed-interval planner, run with the canonical fuel
`⌈duration / clipDur⌉ + 1` (the loop performs at most
`⌈duration / clipDur⌉` iterations; see the termination theorem). -/
def planFixed (duration clipDur threshold : ℚ) (fit : AutoFit) : List Interval :=
  (planFixedAux duration clipDur threshold fit ((⌈duration / clipDur⌉).toNat + 1) 0).getD []

/-- `chain s l e` — the interval list `l` is a gap-free chain from `s` to `e`:
the first interval starts at `s`, the `end` of each interval equals the
`start` of the next, and the `end` of the last interval is `e` (`l = []` degenerates
to `s = e`).  This is the ClipInterval sequence invariant of the spec. -/
def chain (s : ℚ) (l : List Interval) (e : ℚ) : Prop :=
  match l with
  | [] => s = e
  | iv :: rest => iv.start = s ∧ chain iv.stop rest e

def chainDec : (s : ℚ) → (l : List Interval) → (e : ℚ) → Decidable (chain s l e)
  | s, [], e => inferInstanceAs (Decidable (s = e))
  | s, iv :: rest, e =>
    @instDecidableAnd (iv.start = s) (chain iv.stop rest e) inferInstance
      (chainDec iv.stop rest e)

instance (s e : ℚ) (l : List Interval) : Decidable (chain s l e) := chainDec s l e

/-- `end` of the last interval (default `d` for the empty list). -/
def lastStop (l : List Interval) (d : ℚ) : ℚ := (l.getLastD ⟨d, d⟩).stop

/-- `start` of the last interval (default `d` for the empty list). -/
def lastStart (l : List Interval) (d : ℚ) : ℚ := (l.getLastD ⟨d, d⟩).start

/-- Modelled from the spec: the `(sorted unique markers count, after
epsilon-collapsing)` — the number of boundaries of a sorted list kept by the
epsilon walk: a boundary `m` is counted when it exceeds the advancing cursor
by more than `0.1`, and the cursor moves to `m` in every case. -/
def collapsedCount : ℚ → List ℚ → Nat
  | _, [] => 0
  | t, m :: rest =>
    if t + 1/10 < m then collapsedCount m rest + 1 else collapsedCount m rest

/-! ## Output naming (`generateClipName`) -/

/-- JS `String.prototype.replace` with a string pattern: replaces only the
first occurrence of `pat` (for an empty pattern, the replacement is inserted
at the front).  JS `$`-replacement patterns in the replacement string are not
modelled (no replacement used by the claims contains `$`). -/
def replaceFirstL : List Char → List Char → List Char → List Char
  | [], pat, rep => if pat.isPrefixOf ([] : List Char) then rep else []
  | c :: cs, pat, rep =>
    if pat.isPrefixOf (c :: cs) then rep ++ (c :: cs).drop pat.length
    else c :: replaceFirstL cs pat rep

/-- String version of `replaceFirstL`. -/
def replaceFirst (s pat rep : String) : String :=
  ⟨replaceFirstL s.data pat.data rep.data⟩

/-- JS `n.toString().padStart(3, "0")` (zero-padding to width 3). -/
def pad3 (n : Nat) : String :=
  ⟨List.replicate (3 - (toString n).length) '0' ++ (toString n).data⟩

/-- `generateClipName`: successive first-occurrence replacements of the
tokens `{name}`, `{part}` (1-based, zero-padded to 3), `{index}` (1-based),
`{start}` and `\x7bend\x7d` (floored seconds), then `.mp4` is appended.
`template` is `trimSettings.template` and `baseName` the source file name
with its extension stripped. -/
def generateClipName (template baseName : String) (index : Nat) (s e : ℚ) : String :=
  replaceFirst (replaceFirst (replaceFirst (replaceFirst (replaceFirst
    template "{name}" baseName)
    "{part}" (pad3 (index + 1)))
    "{index}" (toString (index + 1)))
    "{start}" (toString (⌊s⌋ : ℤ)))
    "\x7bend\x7d" (toString (⌊e⌋ : ℤ)) ++ ".mp4"

/-! ## Argument construction (`processVideo`, per-interval `args`) -/

/-- Premium settings record (`premiumSettings`). -/
structure Premium where
  watermark : String
  resize : String
  normalize : Bool
  quality : String
deriving DecidableEq, Repr

/-- One token of the engine argument list.  Literal string tokens are kept
verbatim; the two numeric tokens (`start.toFixed(3)`, `clipDur.toFixed(3)`)
are kept as exact rationals, serialized only at the engine boundary. -/
inductive Arg
  | lit : String → Arg
  | time : ℚ → Arg
deriving DecidableEq, Repr

/-- CRF value per `premiumSettings.quality`
(18 for High, 23 for Medium, 28 otherwise). -/
def crfFor (q : String) : String :=
  if q = "High" then "18" else if q = "Medium" then "23" else "28"

/-- The `filter_complex` prefix after the reframe step: the three 9:16
stages (`boxblur` background, scaled foreground, centered overlay) when
`premiumSettings.resize === "9:16"` in the source, else the empty string. -/
def filterComplex1 (prem : Premium) : String :=
  if prem.resize = "9:16" then
    "[0:v]scale=1080:1920:force_original_aspect_ratio=increase,crop=1080:1920,boxblur=20:10[bg];"
      ++ "[0:v]scale=1080:1920:force_original_aspect_ratio=decrease[fg];"
      ++ "[bg][fg]overlay=(W-w)/2:(H-h)/2[v];"
  else ""

/-- `lastLabel` after the reframe step. -/
def lastLabel1 (prem : Premium) : String :=
  if prem.resize = "9:16" then "[v]" else "[0:v]"

/-- The `filter_complex` string after the watermark step: a `drawtext` stage
consuming the current last label is appended when the watermark text is
non-empty (JS truthiness of `premiumSettings.watermark`). -/
def filterComplex2 (prem : Premium) : String :=
  if prem.watermark ≠ "" then
    filterComplex1 prem ++ lastLabel1 prem ++ "drawtext=text=\x27" ++ prem.watermark
      ++ "\x27:x=w-tw-20:y=h-th-20:fontsize=48:fontcolor=white:shadowcolor=black:shadowx=2:shadowy=2[v_out];"
  else filterComplex1 prem

/-- `lastLabel` after the watermark step. -/
def lastLabel2 (prem : Premium) : String :=
  if prem.watermark ≠ "" then "[v_out]" else lastLabel1 prem

/-- The argument list built for one interval by `processVideo`: the common
seek/input/duration prefix, then either the stream-copy path (when the mode
is the copy mode and no premium transform is active) or the re-encode path with
its conditionally built `filter_complex` string (trailing semicolon
trimmed), optional `-af loudnorm`, and the fixed encoder settings; the
output name is appended last. -/
def buildArgs (mode : String) (prem : Premium) (inputName outputName : String)
    (start clipDur : ℚ) : List Arg :=
  let base : List Arg :=
    [.lit "-ss", .time start, .lit "-i", .lit inputName, .lit "-t", .time clipDur]
  let mid : List Arg :=
    if mode = "copy" ∧ prem.resize = "none" ∧ prem.normalize = false ∧ prem.watermark = "" then
      base ++ [.lit "-c", .lit "copy"]
    else
      let withFilter : List Arg :=
        if filterComplex2 prem ≠ "" then
          base ++ [.lit "-filter_complex",
            .lit (if (filterComplex2 prem).endsWith ";" then (filterComplex2 prem).dropRight 1
              else filterComplex2 prem),
            .lit "-map", .lit (lastLabel2 prem), .lit "-map", .lit "0:a?"]
        else base
      let withAf : List Arg :=
        if prem.normalize then withFilter ++ [.lit "-af", .lit "loudnorm"] else withFilter
      withAf ++ [.lit "-c:v", .lit "libx264", .lit "-preset", .lit "veryfast",
        .lit "-crf", .lit (crfFor prem.quality),
        .lit "-c:a", .lit "aac", .lit "-b:a", .lit "128k"]
  mid ++ [.lit outputName]

/-! ## Job driver loop (`processVideo`, the `for` loop over `intervals`) -/

/-- One entry of `generatedClips` (blob URLs abstracted: `hasThumb` records
whether `thumbUrl` is a real URL or the empty string of the thumbnail-failure catch
branch). -/
structure ClipRec where
  name : String
  hasThumb : Bool
  startTime : ℚ
  endTime : ℚ
  index : Nat
deriving DecidableEq, Repr

/-- The per-interval driver loop.  `cancelRequested` models
`!shouldProcessRef.current` being already set when the iteration starts (the
flag only ever moves from `true` to `false` once `cancelProcessing` runs);
the loop breaks when `cancelRequested && i > 0` — the guard from the source,
including its `i > 0` conjunct.  `thumbFails i` models the thumbnail
`ffmpeg.exec` throwing for interval `i`; in that case the catch branch still
records the clip, with an empty thumbnail.  The main-clip `exec` is modelled
as succeeding (its failure aborts the whole job and is outside these
claims). -/
def runClips (template baseName : String) (thumbFails : Nat → Bool)
    (cancelRequested : Bool) : List Interval → Nat → List ClipRec
  | [], _ => []
  | iv :: rest, i =>
    if cancelRequested ∧ 0 < i then []
    else
      { name := generateClipName template baseName i iv.start iv.stop,
        hasThumb := !(thumbFails i),
        startTime := iv.start,
        endTime := iv.stop,
        index := i } :: runClips template baseName thumbFails cancelRequested rest (i + 1)

/-- A `ClipRec` with the thumbnail outcome erased, for stating that the
main-clip result does not depend on thumbnail failures. -/
def thumbErased (c : ClipRec) : ClipRec := { c with hasThumb := true }

/-! ## Helper lemmas -/

theorem getLastD_eq_of_ne_nil {α : Type} :
    ∀ (l : List α) (d d' : α), l ≠ [] → l.getLastD d = l.getLastD d'
  | [], _, _, h => absurd rfl h
  | _ :: _, _, _, _ => by rw [List.getLastD_cons, List.getLastD_cons]

theorem getLastD_mem {α : Type} :
    ∀ (l : List α) (d : α), l ≠ [] → l.getLastD d ∈ l
  | [], _, h => absurd rfl h
  | [a], _, _ => by
    rw [List.getLastD_cons]
    exact List.mem_singleton.mpr rfl
  | a :: b :: l, d, _ => by
    rw [List.getLastD_cons]
    exact List.mem_cons_of_mem a (getLastD_mem (b :: l) a (List.cons_ne_nil _ _))

/-- Along a strictly increasing walk, every member of the list is at most its
last element. -/
theorem le_getLastD_of_chain_lt :
    ∀ (l : List ℚ) (t d x : ℚ), List.Chain (· < ·) t l → x ∈ l → x ≤ l.getLastD d := by
  intro l
  induction l with
  | nil => exact fun t d x _ hx => absurd hx (List.not_mem_nil x)
  | cons a l ih =>
    intro t d x hch hx
    rw [List.chain_cons] at hch
    rw [List.getLastD_cons]
    rcases List.mem_cons.mp hx with h | hx'
    · subst h
      cases l with
      | nil => exact le_refl x
      | cons b l' =>
        have hxb : x < b := (List.chain_cons.mp hch.2).1
        have hb : b ≤ (b :: l').getLastD x :=
          ih x x b hch.2 (List.mem_cons_self _ _)
        exact le_of_lt (lt_of_lt_of_le hxb hb)
    · exact ih a a x hch.2 hx'

/-- The epsilon walk of the marker planner follows a separated boundary list
exactly: the result is a gap-free chain from the cursor to the last
boundary. -/
theorem planMarkersAux_chain :
    ∀ (l : List ℚ) (t : ℚ), List.Chain (fun a b => a + 1/10 < b) t l →
      chain t (planMarkersAux t l) (l.getLastD t)
  | [], t, _ => rfl
  | m :: rest, t, hch => by
    rw [List.chain_cons] at hch
    rw [planMarkersAux, if_pos hch.1, List.getLastD_cons]
    exact ⟨rfl, planMarkersAux_chain rest m hch.2⟩

/-- If the marker walk emits nothing, every boundary lies within the total
epsilon budget `0.1 * length` above the starting cursor. -/
theorem planMarkersAux_nil_bound :
    ∀ (l : List ℚ) (t : ℚ), planMarkersAux t l = [] →
      ∀ x ∈ l, x ≤ t + (1/10) * l.length
  | [], _, _, x, hx => absurd hx (List.not_mem_nil x)
  | m :: rest, t, h, x, hx => by
    rw [planMarkersAux] at h
    by_cases hc : t + 1/10 < m
    · rw [if_pos hc] at h; exact absurd h (List.cons_ne_nil _ _)
    · rw [if_neg hc] at h
      push_neg at hc
      rcases List.mem_cons.mp hx with rfl | hx
      · calc x ≤ t + 1/10 := hc
          _ ≤ t + (1/10) * (x :: rest).length := by
            rw [List.length_cons]
            push_cast
            nlinarith [Nat.cast_nonneg (α := ℚ) rest.length]
      · calc x ≤ m + (1/10) * rest.length := planMarkersAux_nil_bound rest m h x hx
          _ ≤ t + 1/10 + (1/10) * rest.length := by linarith
          _ = t + (1/10) * (m :: rest).length := by
            rw [List.length_cons]
            push_cast
            ring

/-- A list of zero boundaries yields no intervals from cursor `0`. -/
theorem planMarkersAux_zero :
    ∀ (l : List ℚ), (∀ x ∈ l, x = 0) → planMarkersAux 0 l = []
  | [], _ => rfl
  | m :: rest, h => by
    have hm : m = 0 := h m (List.mem_cons_self _ _)
    subst hm
    rw [planMarkersAux, if_neg (by norm_num)]
    exact planMarkersAux_zero rest fun x hx => h x (List.mem_cons_of_mem _ hx)

/-- The number of emitted intervals equals the number of boundaries kept by
the epsilon-collapsing walk. -/
theorem planMarkersAux_length :
    ∀ (l : List ℚ) (t : ℚ), (planMarkersAux t l).length = collapsedCount t l
  | [], _ => rfl
  | m :: rest, t => by
    rw [planMarkersAux, collapsedCount]
    by_cases hc : t + 1/10 < m
    · rw [if_pos hc, if_pos hc, List.length_cons, planMarkersAux_length rest m]
    · rw [if_neg hc, if_neg hc, planMarkersAux_length rest m]

/-- In merge mode, whatever the loop returns from a cursor below `duration`
is a gap-free chain from that cursor to `duration`. -/
theorem planFixedAux_merge_chain (dur c thr : ℚ) :
    ∀ (fuel : Nat) (current : ℚ) (l : List Interval),
      current < dur →
      planFixedAux dur c thr AutoFit.merge fuel current = some l →
      chain current l dur := by
  intro fuel
  induction fuel with
  | zero =>
    intro current l _ h
    exact absurd h (by simp [planFixedAux])
  | succ fuel ih =>
    intro current l hlt h
    simp only [planFixedAux] at h
    rw [if_pos hlt] at h
    by_cases hs : 0 < dur - min (current + c) dur ∧ dur - min (current + c) dur < thr
    · rw [if_pos hs] at h
      have h' : [Interval.mk current dur] = l := Option.some.inj h
      subst h'
      exact ⟨rfl, rfl⟩
    · rw [if_neg hs] at h
      by_cases he : min (current + c) dur < dur
      · rw [if_pos he] at h
        cases haux : planFixedAux dur c thr AutoFit.merge fuel (min (current + c) dur) with
        | none => rw [haux] at h; exact absurd h (by simp)
        | some l' =>
          rw [haux] at h
          simp only [Option.map_some'] at h
          have h' : Interval.mk current (min (current + c) dur) :: l' = l :=
            Option.some.inj h
          subst h'
          exact ⟨rfl, ih (min (current + c) dur) l' he haux⟩
      · rw [if_neg he] at h
        have heq : min (current + c) dur = dur :=
          le_antisymm (min_le_right _ _) (not_lt.mp he)
        have h' : [Interval.mk current (min (current + c) dur)] = l := Option.some.inj h
        subst h'
        exact ⟨rfl, heq⟩

/-- Fuel sufficiency: with positive clip duration, fuel `n` completes the
loop whenever the remaining length is at most `n` clips. -/
theorem planFixedAux_isSome (dur c thr : ℚ) (fit : AutoFit) :
    ∀ (fuel : Nat) (current : ℚ),
      current < dur → dur - current ≤ (fuel : ℚ) * c →
      (planFixedAux dur c thr fit fuel current).isSome := by
  intro fuel
  induction fuel with
  | zero =>
    intro current hlt hb
    norm_num at hb
    exact absurd hb (not_le.mpr (by linarith))
  | succ fuel ih =>
    intro current hlt hb
    simp only [planFixedAux]
    rw [if_pos hlt]
    by_cases hs : 0 < dur - min (current + c) dur ∧ dur - min (current + c) dur < thr
    · rw [if_pos hs]
      cases fit <;> simp
    · rw [if_neg hs]
      by_cases he : min (current + c) dur < dur
      · rw [if_pos he]
        have hmin : min (current + c) dur = current + c := by
          rcases min_cases (current + c) dur with h | h
          · exact h.1
          · rw [h.1] at he; exact absurd he (lt_irrefl _)
        have hb' : dur - (current + c) ≤ (fuel : ℚ) * c := by
          push_cast at hb ⊢
          linarith
        have := ih (min (current + c) dur) he (by rw [hmin]; exact hb')
        rw [Option.isSome_map']
        exact this
      · rw [if_neg he]
        simp

/-- From a cursor below `duration`, a successful run never returns the empty
interval list. -/
theorem planFixedAux_some_ne_nil (dur c thr : ℚ) (fit : AutoFit) :
    ∀ (fuel : Nat) (current : ℚ) (l : List Interval),
      current < dur →
      planFixedAux dur c thr fit fuel current = some l →
      l ≠ [] := by
  intro fuel
  induction fuel with
  | zero =>
    intro current l _ h
    exact absurd h (by simp [planFixedAux])
  | succ fuel ih =>
    intro current l hlt h
    simp only [planFixedAux] at h
    rw [if_pos hlt] at h
    by_cases hs : 0 < dur - min (current + c) dur ∧ dur - min (current + c) dur < thr
    · rw [if_pos hs] at h
      cases fit with
      | merge =>
        have h' : [Interval.mk current dur] = l := Option.some.inj h
        subst h'; exact List.cons_ne_nil _ _
      | discard =>
        have h' : [Interval.mk current (min (current + c) dur)] = l := Option.some.inj h
        subst h'; exact List.cons_ne_nil _ _
    · rw [if_neg hs] at h
      by_cases he : min (current + c) dur < dur
      · rw [if_pos he] at h
        cases haux : planFixedAux dur c thr fit fuel (min (current + c) dur) with
        | none => rw [haux] at h; exact absurd h (by simp)
        | some l' =>
          rw [haux] at h
          simp only [Option.map_some'] at h
          have h' : Interval.mk current (min (current + c) dur) :: l' = l :=
            Option.some.inj h
          subst h'; exact List.cons_ne_nil _ _
      · rw [if_neg he] at h
        have h' : [Interval.mk current (min (current + c) dur)] = l := Option.some.inj h
        subst h'; exact List.cons_ne_nil _ _

/-- The canonical fuel of `planFixed` is sufficient: the loop completes and
`planFixed` is its result. -/
theorem planFixedAux_canonical (dur c thr : ℚ) (fit : AutoFit)
    (hdur : 0 < dur) (hc : 0 < c) :
    planFixedAux dur c thr fit ((⌈dur / c⌉).toNat + 1) 0 =
      some (planFixed dur c thr fit) := by
  have hceil : (0 : ℤ) < ⌈dur / c⌉ := by
    rw [Int.lt_ceil]
    push_cast
    positivity
  have hbound : dur - 0 ≤ (((⌈dur / c⌉).toNat + 1 : Nat) : ℚ) * c := by
    have h1 : dur / c ≤ ((⌈dur / c⌉ : ℤ) : ℚ) := Int.le_ceil _
    have h2 : (((⌈dur / c⌉).toNat : ℤ) : ℚ) = ((⌈dur / c⌉ : ℤ) : ℚ) := by
      rw [Int.toNat_of_nonneg (le_of_lt hceil)]
    have h3 : dur ≤ ((⌈dur / c⌉ : ℤ) : ℚ) * c := by
      rw [div_le_iff₀ hc] at h1
      exact h1
    push_cast at h2 ⊢
    nlinarith
  have hsome := planFixedAux_isSome dur c thr fit ((⌈dur / c⌉).toNat + 1) 0 hdur hbound
  rw [planFixed]
  obtain ⟨l, hl⟩ := Option.isSome_iff_exists.mp hsome
  rw [hl]
  rfl

theorem lastStop_singleton (iv : Interval) (d : ℚ) : lastStop [iv] d = iv.stop := rfl

theorem lastStart_singleton (iv : Interval) (d : ℚ) : lastStart [iv] d = iv.start := rfl

theorem lastStop_cons_of_ne_nil (x : Interval) (l : List Interval) (d : ℚ)
    (h : l ≠ []) : lastStop (x :: l) d = lastStop l d := by
  rw [lastStop, lastStop, List.getLastD_cons, getLastD_eq_of_ne_nil l x ⟨d, d⟩ h]

theorem lastStart_cons_of_ne_nil (x : Interval) (l : List Interval) (d : ℚ)
    (h : l ≠ []) : lastStart (x :: l) d = lastStart l d := by
  rw [lastStart, lastStart, List.getLastD_cons, getLastD_eq_of_ne_nil l x ⟨d, d⟩ h]

/-- Discard-mode loop invariant, from a cursor at a whole number `k` of
clip lengths: every produced `end` stays within `duration`; the output is
non-empty; the run ends strictly before `duration` exactly when at least one
further whole clip fits strictly inside the media and the true trailing
remainder `duration - clipDur * ⌊duration / clipDur⌋` lies strictly between
`0` and the threshold; and in that early-ending case the final emitted
interval is a full clip of length exactly `clipDur` (no separate interval is
emitted for the dropped tail). -/
theorem planFixedAux_discard_spec (dur c thr : ℚ) (hc : 0 < c) (hthr : thr ≤ c) :
    ∀ (fuel : Nat) (k : ℕ) (l : List Interval),
      c * k < dur →
      planFixedAux dur c thr AutoFit.discard fuel (c * k) = some l →
      (∀ iv ∈ l, iv.stop ≤ dur) ∧
      l ≠ [] ∧
      (lastStop l 0 < dur ↔
        (c * ((k : ℚ) + 1) < dur ∧
          0 < dur - c * ⌊dur / c⌋ ∧ dur - c * ⌊dur / c⌋ < thr)) ∧
      (lastStop l 0 < dur → lastStop l 0 - lastStart l 0 = c) := by
  intro fuel
  induction fuel with
  | zero =>
    intro k l _ h
    exact absurd h (by simp [planFixedAux])
  | succ fuel ih =>
    intro k l hlt h
    simp only [planFixedAux] at h
    rw [if_pos hlt] at h
    by_cases hA : c * ((k : ℚ) + 1) < dur
    · -- at least one further whole-clip boundary lies strictly inside the media
      have hmin : min (c * (k : ℚ) + c) dur = c * (k : ℚ) + c := by
        apply min_eq_left
        nlinarith
      rw [hmin] at h
      have hrem : dur - (c * (k : ℚ) + c) = dur - c * ((k : ℚ) + 1) := by ring
      by_cases hs : 0 < dur - (c * (k : ℚ) + c) ∧ dur - (c * (k : ℚ) + c) < thr
      · -- sub-threshold remainder: discard branch, one last full clip
        rw [if_pos hs] at h
        have h' : [Interval.mk (c * (k : ℚ)) (c * (k : ℚ) + c)] = l := Option.some.inj h
        subst h'
        have hfloor : ⌊dur / c⌋ = (k : ℤ) + 1 := by
          rw [Int.floor_eq_iff]
          constructor
          · push_cast
            rw [le_div_iff₀ hc]
            nlinarith
          · push_cast
            rw [div_lt_iff₀ hc]
            nlinarith [hs.2, hthr]
        have htr : dur - c * ⌊dur / c⌋ = dur - (c * (k : ℚ) + c) := by
          rw [hfloor]
          push_cast
          ring
        refine ⟨?_, List.cons_ne_nil _ _, ?_, ?_⟩
        · intro iv hiv
          rw [List.mem_singleton.mp hiv]
          show c * (k : ℚ) + c ≤ dur
          nlinarith
        · rw [lastStop_singleton]
          dsimp only
          constructor
          · intro _
            exact ⟨hA, by rw [htr]; exact hs⟩
          · intro _
            nlinarith
        · intro _
          rw [lastStop_singleton, lastStart_singleton]
          dsimp only
          ring
      · -- remainder at least the threshold: push a full clip and recurse
        rw [if_neg hs] at h
        have he : c * (k : ℚ) + c < dur := by nlinarith
        rw [if_pos he] at h
        have hcast : c * (k : ℚ) + c = c * ((k + 1 : ℕ) : ℚ) := by push_cast; ring
        cases haux : planFixedAux dur c thr AutoFit.discard fuel (c * (k : ℚ) + c) with
        | none => rw [haux] at h; exact absurd h (by simp)
        | some l' =>
          rw [haux] at h
          simp only [Option.map_some'] at h
          have h' : Interval.mk (c * (k : ℚ)) (c * (k : ℚ) + c) :: l' = l := Option.some.inj h
          subst h'
          have haux' : planFixedAux dur c thr AutoFit.discard fuel (c * ((k + 1 : ℕ) : ℚ)) = some l' := by
            rw [← hcast]; exact haux
          have hlt' : c * ((k + 1 : ℕ) : ℚ) < dur := by rw [← hcast]; exact he
          obtain ⟨hstops', hne', hiff', hlen'⟩ := ih (k + 1) l' hlt' haux'
          have hLS : lastStop (Interval.mk (c * (k : ℚ)) (c * (k : ℚ) + c) :: l') 0 = lastStop l' 0 :=
            lastStop_cons_of_ne_nil _ _ _ hne'
          have hLSt : lastStart (Interval.mk (c * (k : ℚ)) (c * (k : ℚ) + c) :: l') 0 = lastStart l' 0 :=
            lastStart_cons_of_ne_nil _ _ _ hne'
          refine ⟨?_, List.cons_ne_nil _ _, ?_, ?_⟩
          · intro iv hiv
            rcases List.mem_cons.mp hiv with rfl | hiv'
            · exact le_of_lt he
            · exact hstops' iv hiv'
          · rw [hLS, hiff']
            constructor
            · rintro ⟨h2, htr⟩
              exact ⟨hA, htr⟩
            · rintro ⟨_, htr⟩
              refine ⟨?_, htr⟩
              -- show c * (k + 2) < dur; otherwise the remainder analysis contradicts htr
              by_contra hge
              push_neg at hge
              push_cast at hge
              have hfl1 : (k : ℤ) + 1 ≤ ⌊dur / c⌋ := by
                rw [Int.le_floor]
                push_cast
                rw [le_div_iff₀ hc]
                nlinarith
              have hfl2 : ⌊dur / c⌋ ≤ (k : ℤ) + 2 := by
                have h1 : (⌊dur / c⌋ : ℚ) ≤ dur / c := Int.floor_le _
                have h2 : dur / c ≤ (k : ℚ) + 2 := by
                  rw [div_le_iff₀ hc]
                  nlinarith
                exact_mod_cast le_trans h1 h2
              have hcases : ⌊dur / c⌋ = (k : ℤ) + 1 ∨ ⌊dur / c⌋ = (k : ℤ) + 2 := by omega
              rcases hcases with hval | hval
              · -- the remainder equals this step's remainder, which is ≥ thr
                rw [hval] at htr
                push_cast at htr
                push_neg at hs
                have h0 : 0 < dur - (c * (k : ℚ) + c) := by linarith [htr.1]
                have hge' := hs h0
                linarith [htr.2]
              · -- duration is an exact multiple of the clip length, remainder 0
                rw [hval] at htr
                push_cast at htr
                linarith [htr.1]
          · rw [hLS, hLSt]
            exact hlen'
    · -- no further whole clip fits: the final interval ends exactly at duration
      have hmin : min (c * (k : ℚ) + c) dur = dur := by
        apply min_eq_right
        push_neg at hA
        nlinarith
      rw [hmin] at h
      have hs : ¬(0 < dur - dur ∧ dur - dur < thr) := by
        intro hx
        simp at hx
      rw [if_neg hs, if_neg (lt_irrefl dur)] at h
      have h' : [Interval.mk (c * (k : ℚ)) dur] = l := Option.some.inj h
      subst h'
      refine ⟨?_, List.cons_ne_nil _ _, ?_, ?_⟩
      · intro iv hiv
        rw [List.mem_singleton.mp hiv]
      · rw [lastStop_singleton]
        dsimp only
        constructor
        · intro hx
          exact absurd hx (lt_irrefl _)
        · rintro ⟨h1, _⟩
          exact absurd h1 hA
      · intro hx
        rw [lastStop_singleton] at hx
        dsimp only at hx
        exact absurd hx (lt_irrefl _)

/-- The driver loop over all intervals, with cancellation never requested,
in closed form: one `ClipRec` per interval, in order.  Thumbnail failure at
an interval only flips that record's `hasThumb`; every other field, and the
processing of all subsequent intervals, is independent of `thumbFails`. -/
theorem runClips_eq_enumFrom (tmpl base : String) (tf : Nat → Bool) :
    ∀ (l : List Interval) (i : Nat),
      runClips tmpl base tf false l i = (l.enumFrom i).map (fun p =>
        { name := generateClipName tmpl base p.1 p.2.start p.2.stop,
          hasThumb := !(tf p.1), startTime := p.2.start, endTime := p.2.stop,
          index := p.1 })
  | [], _ => rfl
  | iv :: rest, i => by
    rw [runClips, if_neg (by simp), List.enumFrom, List.map_cons]
    exact congrArg _ (runClips_eq_enumFrom tmpl base tf rest (i + 1))

/-- C9 — for every interval, a thumbnail-extraction failure is recovered
locally: the clip is still recorded (with an empty thumbnail), later
intervals are still processed, and erasing the thumbnail outcome makes the
output independent of which thumbnail invocations failed — the main-clip
results are unaffected. -/
theorem thumbnail_failure_recovered (tmpl base : String) (tf tf' : Nat → Bool)
    (l : List Interval) (i : Nat) :
    runClips tmpl base tf false l i = (l.enumFrom i).map (fun p =>
      { name := generateClipName tmpl base p.1 p.2.start p.2.stop,
        hasThumb := !(tf p.1), startTime := p.2.start, endTime := p.2.stop,
        index := p.1 }) ∧
    (runClips tmpl base tf false l i).length = l.length ∧
    (runClips tmpl base tf false l i).map thumbErased =
      (runClips tmpl base tf' false l i).map thumbErased := by
  refine ⟨runClips_eq_enumFrom tmpl base tf l i, ?_, ?_⟩
  · rw [runClips_eq_enumFrom tmpl base tf l i, List.length_map, List.enumFrom_length]
  · rw [runClips_eq_enumFrom tmpl base tf l i, runClips_eq_enumFrom tmpl base tf' l i,
      List.map_map, List.map_map]
    rfl

/-- C2 — the source guard is `!shouldProcessRef.current && i > 0`: with
cancellation requested before the loop starts, the first interval is STILL
processed (exactly one `ClipRec` is produced for a non-empty interval list),
contradicting the claim that no interval is processed.  This is the
first-iteration skip defect the repository's own fix report calls fixed but
which is still present in the component. -/
theorem first_interval_processed_despite_cancel (tmpl base : String)
    (tf : Nat → Bool) (iv : Interval) (rest : List Interval) :
    runClips tmpl base tf true (iv :: rest) 0 =
      [{ name := generateClipName tmpl base 0 iv.start iv.stop,
         hasThumb := !(tf 0), startTime := iv.start, endTime := iv.stop,
         index := 0 }] := by
  rw [runClips, if_neg (by simp)]
  congr 1
  cases rest with
  | nil => rfl
  | cons iv2 rest2 => rw [runClips, if_pos (by simp)]

/-- C7 — `generateClipName` does textual token substitution only: a template
containing neither `\x7bindex\x7d` nor `\x7bpart\x7d` (here the literal
template `clip`) produces the identical artifact name for every interval
index, so names are NOT pairwise distinct as the spec requires. -/
theorem tokenless_template_name_collision :
    generateClipName "clip" "video" 0 0 30 = "clip.mp4" ∧
    generateClipName "clip" "video" 1 30 60 = "clip.mp4" := by
  constructor <;> decide

/-- C10 — with `duration > 0` and a positive parsed clip duration, the
fixed-interval `while` loop terminates within `⌈duration / clipDur⌉`
iterations: that much fuel already makes the embedded loop return a
result. -/
theorem fixed_loop_terminates (dur c thr : ℚ) (fit : AutoFit)
    (hdur : 0 < dur) (hc : 0 < c) :
    (planFixedAux dur c thr fit ((⌈dur / c⌉).toNat) 0).isSome := by
  apply planFixedAux_isSome dur c thr fit _ 0 hdur
  have hceil : (0 : ℤ) < ⌈dur / c⌉ := by
    rw [Int.lt_ceil]
    push_cast
    positivity
  have h1 : dur / c ≤ ((⌈dur / c⌉ : ℤ) : ℚ) := Int.le_ceil _
  have h2 : (((⌈dur / c⌉).toNat : ℤ) : ℚ) = ((⌈dur / c⌉ : ℤ) : ℚ) := by
    rw [Int.toNat_of_nonneg (le_of_lt hceil)]
  rw [div_le_iff₀ hc] at h1
  push_cast at h2 ⊢
  nlinarith

theorem fixed_loop_terminates_witness :
    (0 : ℚ) < 95 ∧ (0 : ℚ) < 30 ∧
      (planFixedAux 95 30 5 AutoFit.merge ((⌈(95 : ℚ) / 30⌉).toNat) 0).isSome :=
  ⟨by norm_num, by norm_num,
    fixed_loop_terminates 95 30 5 AutoFit.merge (by norm_num) (by norm_num)⟩

/-- C5 counterexample — on duration 95, clip duration 30, threshold 5,
merge: the planner does NOT produce the three intervals the claim states
(the remainder 5 is not strictly below the threshold 5, so no merge happens
and a fourth interval `[90, 95]` is emitted). -/
theorem merge_scenario_refutes_claimed_list :
    planFixed 95 30 5 AutoFit.merge ≠
      [⟨0, 30⟩, ⟨30, 60⟩, ⟨60, 95⟩] := by
  have hceil : ((⌈(95 : ℚ) / 30⌉).toNat + 1) = 5 := by
    rw [show ⌈(95 : ℚ) / 30⌉ = 4 by rw [Int.ceil_eq_iff] ; norm_num]
    rfl
  rw [planFixed, hceil]
  norm_num [planFixedAux, min_def]

/-- C5 amended — duration 95, clip duration 30, threshold 5, merge: the
planner produces exactly `[0,30],[30,60],[60,90],[90,95]`; the remainder of
exactly 5 equals the threshold and does not trigger the merge, because the
comparison `remainder < remainderThreshold` is strict. -/
theorem merge_scenario_actual_intervals :
    planFixed 95 30 5 AutoFit.merge =
      [⟨0, 30⟩, ⟨30, 60⟩, ⟨60, 90⟩, ⟨90, 95⟩] := by
  have hceil : ((⌈(95 : ℚ) / 30⌉).toNat + 1) = 5 := by
    rw [show ⌈(95 : ℚ) / 30⌉ = 4 by rw [Int.ceil_eq_iff] ; norm_num]
    rfl
  rw [planFixed, hceil]
  norm_num [planFixedAux, min_def]

/-- C6 counterexample — duration 10, markers `[5]`: the planner emits two
intervals (`[0,5]` and `[5,10]`) but the epsilon-collapsed count of the
sorted unique markers alone is 1, so the interval count does not equal the
collapsed marker count. -/
theorem interval_count_counterexample :
    (planMarkers 10 [5]).length = 2 ∧
    collapsedCount 0 (List.insertionSort (· ≤ ·) [(5 : ℚ)]) = 1 := by
  constructor
  · norm_num [planMarkers, planMarkersAux, List.insertionSort, List.orderedInsert]
  · norm_num [collapsedCount, List.insertionSort, List.orderedInsert]

/-- C6 amended — the interval count equals the epsilon-collapsed count of
the sorted boundary list with `duration` APPENDED to the markers (the code
walks `[...markers, duration].sort()`), not of the markers alone. -/
theorem interval_count_eq_collapsed_boundaries (dur : ℚ) (ms : List ℚ) :
    (planMarkers dur ms).length =
      collapsedCount 0 (List.insertionSort (· ≤ ·) (ms ++ [dur])) :=
  planMarkersAux_length _ 0

/-- C1 counterexample — duration 10, markers `[5, 5.1]` (both in
`[0, duration]`, duration positive): the epsilon skip advances the cursor to
the skipped marker, so the planner emits `[0,5]` followed by `[5.1,10]` — the
first interval's `end` (5) is not the second interval's `start` (5.1), so
the output is not gap-free. -/
theorem marker_gap_counterexample :
    (planMarkers 10 [5, 51/10]).length = 2 ∧
    ((planMarkers 10 [5, 51/10]).getD 0 ⟨0, 0⟩).stop ≠
      ((planMarkers 10 [5, 51/10]).getD 1 ⟨0, 0⟩).start := by
  have h : planMarkers 10 [5, 51/10] = [⟨0, 5⟩, ⟨51/10, 10⟩] := by
    norm_num [planMarkers, planMarkersAux, List.insertionSort, List.orderedInsert]
  rw [h]
  refine ⟨rfl, ?_⟩
  show (5 : ℚ) ≠ 51/10
  norm_num

/-- C1 amended — the gap-free covering invariant (`chain 0 _ duration`:
first interval starts at 0, each `end` equals the next `start`, last `end`
is exactly `duration`) holds for the fixed-interval planner in merge mode
whenever `duration > 0` and the clip duration is positive, and for the
marker planner whenever additionally all consecutive boundaries of the
sorted walk `0, markers…, duration` are separated by more than the 0.1s
epsilon (without that separation the invariant fails, see the
counterexample). -/
theorem planner_chain_invariant (dur c thr : ℚ) (ms : List ℚ) (hdur : 0 < dur) :
    (0 < c →
      planFixed dur c thr AutoFit.merge ≠ [] ∧
      chain 0 (planFixed dur c thr AutoFit.merge) dur) ∧
    (ms ≠ [] → (∀ m ∈ ms, 0 ≤ m ∧ m ≤ dur) →
      List.Chain (fun a b => a + 1/10 < b) 0
        (List.insertionSort (· ≤ ·) (ms ++ [dur])) →
      planMarkers dur ms ≠ [] ∧ chain 0 (planMarkers dur ms) dur) := by
  constructor
  · intro hc
    have hcan := planFixedAux_canonical dur c thr AutoFit.merge hdur hc
    constructor
    · exact planFixedAux_some_ne_nil dur c thr AutoFit.merge _ 0 _ hdur hcan
    · exact planFixedAux_merge_chain dur c thr _ 0 _ hdur hcan
  · intro _ hms hsep
    set sorted := List.insertionSort (· ≤ ·) (ms ++ [dur]) with hsorted
    have hperm : sorted.Perm (ms ++ [dur]) := List.perm_insertionSort _ _
    have hmem : dur ∈ sorted := hperm.mem_iff.mpr (by simp)
    have hlast : sorted.getLastD 0 = dur := by
      have hub : dur ≤ sorted.getLastD 0 :=
        le_getLastD_of_chain_lt sorted 0 0 dur
          (List.Chain.imp (fun a b h => by linarith) hsep) hmem
      have hne : sorted ≠ [] := by
        intro hx
        rw [hx] at hmem
        exact absurd hmem (List.not_mem_nil dur)
      have hin : sorted.getLastD 0 ∈ sorted := getLastD_mem sorted 0 hne
      have hle : sorted.getLastD 0 ≤ dur := by
        rcases List.mem_append.mp (hperm.mem_iff.mp hin) with hx | hx
        · exact (hms _ hx).2
        · rw [List.mem_singleton.mp hx]
      exact le_antisymm hle hub
    have hch : chain 0 (planMarkers dur ms) (sorted.getLastD 0) :=
      planMarkersAux_chain sorted 0 hsep
    rw [hlast] at hch
    refine ⟨?_, hch⟩
    intro hnil
    rw [hnil] at hch
    exact absurd hch (ne_of_lt hdur)

theorem planner_chain_invariant_witness :
    (0 : ℚ) < 95 ∧
    (planFixed 95 30 5 AutoFit.merge ≠ [] ∧
      chain 0 (planFixed 95 30 5 AutoFit.merge) 95) ∧
    (planMarkers 95 [5] ≠ [] ∧ chain 0 (planMarkers 95 [5]) 95) := by
  have h := planner_chain_invariant 95 30 5 [5] (by norm_num)
  refine ⟨by norm_num, h.1 (by norm_num), h.2 (by simp) ?_ ?_⟩
  · intro m hm
    rw [List.mem_singleton.mp hm]
    norm_num
  · have hs : List.insertionSort (· ≤ ·) ([(5 : ℚ)] ++ [95]) = [5, 95] := by
      norm_num [List.insertionSort, List.orderedInsert]
    rw [hs]
    exact List.Chain.cons (by norm_num) (List.Chain.cons (by norm_num) List.Chain.nil)

/-- C4 counterexample — duration 2, clip duration 30, threshold 5 (the
default settings), discard: the whole video is shorter than the threshold,
the "true remainder" `2 - 30·⌊2/30⌋ = 2` is strictly positive and strictly
below the threshold, yet the single produced interval ends AT the duration,
not strictly before it — refuting the claimed "iff". -/
theorem discard_counterexample :
    planFixed 2 30 5 AutoFit.discard = [⟨0, 2⟩] ∧
    lastStop (planFixed 2 30 5 AutoFit.discard) 0 = 2 ∧
    (0 : ℚ) < 2 - 30 * ⌊(2 : ℚ) / 30⌋ ∧ 2 - 30 * ⌊(2 : ℚ) / 30⌋ < 5 := by
  have hfl : ⌊(2 : ℚ) / 30⌋ = 0 := by
    rw [Int.floor_eq_iff]
    · norm_num
  have hev : planFixed 2 30 5 AutoFit.discard = [⟨0, 2⟩] := by
    have hceil : ((⌈(2 : ℚ) / 30⌉).toNat + 1) = 2 := by
      rw [show ⌈(2 : ℚ) / 30⌉ = 1 by rw [Int.ceil_eq_iff] ; norm_num]
      rfl
    rw [planFixed, hceil]
    norm_num [planFixedAux, min_def]
  refine ⟨hev, by rw [hev] ; rfl, ?_, ?_⟩
  · rw [hfl]
    norm_num
  · rw [hfl]
    norm_num

/-- C4 amended — for `duration > 0`, positive clip duration, and (as the
counterexample forces) `remainderThreshold ≤ clip duration`, discard mode:
no interval ends past `duration`; the output is non-empty; the final
interval ends strictly before `duration` iff at least one whole clip fits
strictly inside the media (`clipDur < duration`) AND the true trailing
remainder `duration - clipDur·⌊duration/clipDur⌋` is strictly positive and
strictly below the threshold; and in that case the final emitted interval is
a full clip of length exactly `clipDur` — no separate interval is emitted
for the dropped sub-threshold tail. -/
theorem discard_mode_spec (dur c thr : ℚ) (hdur : 0 < dur) (hc : 0 < c)
    (hthr : thr ≤ c) :
    (∀ iv ∈ planFixed dur c thr AutoFit.discard, iv.stop ≤ dur) ∧
    planFixed dur c thr AutoFit.discard ≠ [] ∧
    (lastStop (planFixed dur c thr AutoFit.discard) 0 < dur ↔
      (c < dur ∧ 0 < dur - c * ⌊dur / c⌋ ∧ dur - c * ⌊dur / c⌋ < thr)) ∧
    (lastStop (planFixed dur c thr AutoFit.discard) 0 < dur →
      lastStop (planFixed dur c thr AutoFit.discard) 0 -
        lastStart (planFixed dur c thr AutoFit.discard) 0 = c) := by
  have hcan := planFixedAux_canonical dur c thr AutoFit.discard hdur hc
  have h0 : c * ((0 : ℕ) : ℚ) = 0 := by norm_num
  have hlt0 : c * ((0 : ℕ) : ℚ) < dur := by rw [h0] ; exact hdur
  have hcan0 : planFixedAux dur c thr AutoFit.discard ((⌈dur / c⌉).toNat + 1)
      (c * ((0 : ℕ) : ℚ)) = some (planFixed dur c thr AutoFit.discard) := by
    rw [h0] ; exact hcan
  have hspec := planFixedAux_discard_spec dur c thr hc hthr
    ((⌈dur / c⌉).toNat + 1) 0 (planFixed dur c thr AutoFit.discard) hlt0 hcan0
  have hsimp : c * (((0 : ℕ) : ℚ) + 1) = c := by norm_num
  rw [hsimp] at hspec
  exact hspec

theorem discard_mode_spec_witness :
    (0 : ℚ) < 94 ∧ (0 : ℚ) < 30 ∧ (5 : ℚ) ≤ 30 ∧
    ((∀ iv ∈ planFixed 94 30 5 AutoFit.discard, iv.stop ≤ 94) ∧
      planFixed 94 30 5 AutoFit.discard ≠ [] ∧
      (lastStop (planFixed 94 30 5 AutoFit.discard) 0 < 94 ↔
        ((30 : ℚ) < 94 ∧ 0 < 94 - 30 * ((⌊(94 : ℚ) / 30⌋ : ℤ) : ℚ) ∧
          94 - 30 * ((⌊(94 : ℚ) / 30⌋ : ℤ) : ℚ) < 5)) ∧
      (lastStop (planFixed 94 30 5 AutoFit.discard) 0 < 94 →
        lastStop (planFixed 94 30 5 AutoFit.discard) 0 -
          lastStart (planFixed 94 30 5 AutoFit.discard) 0 = 30)) :=
  ⟨by norm_num, by norm_num, by norm_num,
    discard_mode_spec 94 30 5 (by norm_num) (by norm_num) (by norm_num)⟩

/-- C8 counterexample — duration `0.08 > 0` with the valid marker `0.05`:
both boundaries fall inside the 0.1s epsilon of the advancing cursor, so the
marker planner returns the empty sequence even though the duration is
strictly positive — refuting "empty only when duration ≤ 0". -/
theorem marker_empty_counterexample :
    (0 : ℚ) < 2/25 ∧ (0 : ℚ) ≤ 1/20 ∧ (1/20 : ℚ) ≤ 2/25 ∧
    planMarkers (2/25) [1/20] = [] := by
  refine ⟨by norm_num, by norm_num, by norm_num, ?_⟩
  norm_num [planMarkers, planMarkersAux, List.insertionSort, List.orderedInsert]

/-- C8 amended — the planners return the empty sequence whenever
`duration ≤ 0` (for valid inputs), and the fixed-interval planner is
non-empty exactly when `duration > 0` (with positive clip duration); the
marker planner, however, is only guaranteed non-empty when `duration`
exceeds the total epsilon budget `0.1 · (markers + 1)` — for positive
durations up to that bound it can be empty (see the counterexample). -/
theorem planner_emptiness (dur c thr : ℚ) (fit : AutoFit) (ms : List ℚ) :
    (dur ≤ 0 → planFixed dur c thr fit = []) ∧
    ((∀ m ∈ ms, 0 ≤ m ∧ m ≤ dur) → dur ≤ 0 → planMarkers dur ms = []) ∧
    (0 < dur → 0 < c → planFixed dur c thr fit ≠ []) ∧
    ((1/10) * ((ms.length : ℚ) + 1) < dur → planMarkers dur ms ≠ []) := by
  refine ⟨?_, ?_, ?_, ?_⟩
  · intro hle
    rw [planFixed]
    simp only [planFixedAux]
    rw [if_neg (not_lt.mpr hle)]
    rfl
  · intro hms hle
    cases ms with
    | nil =>
      have hs : List.insertionSort (· ≤ ·) (([] : List ℚ) ++ [dur]) = [dur] := rfl
      rw [planMarkers, hs, planMarkersAux,
        if_neg (by intro hx ; linarith), planMarkersAux]
    | cons m ms' =>
      have hdm := hms m (List.mem_cons_self _ _)
      have hdur0 : dur = 0 := le_antisymm hle (le_trans hdm.1 hdm.2)
      have hall : ∀ x ∈ List.insertionSort (· ≤ ·) ((m :: ms') ++ [dur]), x = 0 := by
        intro x hx
        rcases List.mem_append.mp
          ((List.perm_insertionSort (· ≤ ·) _).mem_iff.mp hx) with hx' | hx'
        · have := hms x hx'
          rw [hdur0] at this
          exact le_antisymm this.2 this.1
        · rw [List.mem_singleton.mp hx', hdur0]
      rw [planMarkers]
      exact planMarkersAux_zero _ hall
  · intro hdur hc
    exact planFixedAux_some_ne_nil dur c thr fit _ 0 _ hdur
      (planFixedAux_canonical dur c thr fit hdur hc)
  · intro hbudget hnil
    rw [planMarkers] at hnil
    have hbound := planMarkersAux_nil_bound _ 0 hnil dur
      ((List.perm_insertionSort (· ≤ ·) (ms ++ [dur])).mem_iff.mpr (by simp))
    have hlen : (List.insertionSort (· ≤ ·) (ms ++ [dur])).length = ms.length + 1 := by
      rw [(List.perm_insertionSort (· ≤ ·) (ms ++ [dur])).length_eq]
      simp
    rw [hlen] at hbound
    push_cast at hbound
    linarith

theorem planner_emptiness_witness :
    planFixed (-1) 30 5 AutoFit.merge = [] ∧
    planMarkers 0 ([] : List ℚ) = [] ∧
    planFixed 95 30 5 AutoFit.merge ≠ [] ∧
    planMarkers 95 [5] ≠ [] := by
  refine ⟨(planner_emptiness (-1) 30 5 AutoFit.merge []).1 (by norm_num),
    (planner_emptiness 0 30 5 AutoFit.merge []).2.1 (by simp) (by norm_num),
    (planner_emptiness 95 30 5 AutoFit.merge []).2.2.1 (by norm_num) (by norm_num),
    (planner_emptiness 95 30 5 AutoFit.merge [5]).2.2.2 (by simp ; norm_num)⟩

theorem append_eq_empty_right (a b : String) (h : a ++ b = "") : b = "" := by
  have hd := congrArg String.data h
  rw [String.data_append] at hd
  have hb : b.data = [] := (List.append_eq_nil.mp hd).2
  apply String.ext
  rw [hb]

/-- The built `filter_complex` string is non-empty exactly when a video
transform (reframe or watermark) is active. -/
theorem filterComplex2_ne_empty (prem : Premium)
    (h : prem.resize = "9:16" ∨ prem.watermark ≠ "") :
    filterComplex2 prem ≠ "" := by
  by_cases hwm : prem.watermark ≠ ""
  · rw [filterComplex2, if_pos hwm]
    intro hx
    have h1 := append_eq_empty_right _ _ hx
    revert h1
    decide
  · rw [filterComplex2, if_neg hwm]
    rcases h with hres | hres
    · rw [filterComplex1, if_pos hres]
      decide
    · exact absurd hres hwm

/-- `Arg.lit tok` is not among the stream-copy arguments when `tok` is none
of their literal tokens. -/
theorem not_mem_copyArgs (tok inN outN : String) (s d : ℚ)
    (h1 : tok ≠ "-ss") (h2 : tok ≠ "-i") (h3 : tok ≠ inN) (h4 : tok ≠ "-t")
    (h5 : tok ≠ "-c") (h6 : tok ≠ "copy") (h7 : tok ≠ outN) :
    Arg.lit tok ∉ [Arg.lit "-ss", Arg.time s, Arg.lit "-i", Arg.lit inN,
      Arg.lit "-t", Arg.time d, Arg.lit "-c", Arg.lit "copy", Arg.lit outN] := by
  intro hmem
  simp only [List.mem_cons, List.not_mem_nil, or_false] at hmem
  rcases hmem with h | h | h | h | h | h | h | h | h
  · exact h1 (Arg.lit.inj h)
  · exact Arg.noConfusion h
  · exact h2 (Arg.lit.inj h)
  · exact h3 (Arg.lit.inj h)
  · exact h4 (Arg.lit.inj h)
  · exact Arg.noConfusion h
  · exact h5 (Arg.lit.inj h)
  · exact h6 (Arg.lit.inj h)
  · exact h7 (Arg.lit.inj h)

/-- Shape of the argument list on the stream-copy path. -/
theorem buildArgs_copy (mode : String) (prem : Premium) (inN outN : String)
    (s d : ℚ)
    (hcopy : mode = "copy" ∧ prem.resize = "none" ∧ prem.normalize = false ∧
      prem.watermark = "") :
    buildArgs mode prem inN outN s d =
      [Arg.lit "-ss", Arg.time s, Arg.lit "-i", Arg.lit inN, Arg.lit "-t",
        Arg.time d, Arg.lit "-c", Arg.lit "copy", Arg.lit outN] := by
  rw [buildArgs]
  rw [if_pos hcopy]
  rfl

/-- C3 — path selection of the argument builder.  Passthrough (observable as
the absence of the `libx264` re-encode token) is selected iff the mode is
copy AND no transform is active; the passthrough argument list contains no
filter-graph token (`-filter_complex` or `-af`); and any single active
transform forces a filter stage and the re-encode path even when copy mode
was requested.  The name hypotheses only exclude input/output file names
that collide with the tokens themselves. -/
theorem passthrough_selection (mode : String) (prem : Premium)
    (inN outN : String) (s d : ℚ)
    (hin1 : inN ≠ "libx264") (hin2 : inN ≠ "-filter_complex") (hin3 : inN ≠ "-af")
    (hout1 : outN ≠ "libx264") (hout2 : outN ≠ "-filter_complex") (hout3 : outN ≠ "-af") :
    (Arg.lit "libx264" ∉ buildArgs mode prem inN outN s d ↔
      (mode = "copy" ∧ prem.resize = "none" ∧ prem.normalize = false ∧
        prem.watermark = "")) ∧
    ((mode = "copy" ∧ prem.resize = "none" ∧ prem.normalize = false ∧
        prem.watermark = "") →
      Arg.lit "-filter_complex" ∉ buildArgs mode prem inN outN s d ∧
      Arg.lit "-af" ∉ buildArgs mode prem inN outN s d) ∧
    ((prem.resize = "9:16" ∨ prem.normalize = true ∨ prem.watermark ≠ "") →
      (Arg.lit "-filter_complex" ∈ buildArgs mode prem inN outN s d ∨
        Arg.lit "-af" ∈ buildArgs mode prem inN outN s d) ∧
      Arg.lit "libx264" ∈ buildArgs mode prem inN outN s d ∧
      ¬(mode = "copy" ∧ prem.resize = "none" ∧ prem.normalize = false ∧
        prem.watermark = "")) := by
  by_cases hcopy : mode = "copy" ∧ prem.resize = "none" ∧ prem.normalize = false ∧
      prem.watermark = ""
  · rw [buildArgs_copy mode prem inN outN s d hcopy]
    refine ⟨⟨fun _ => hcopy, fun _ => ?_⟩, fun _ => ⟨?_, ?_⟩, fun htr => ?_⟩
    · exact not_mem_copyArgs _ inN outN s d (by decide) (by decide)
        (fun h => hin1 h.symm) (by decide) (by decide) (by decide) (fun h => hout1 h.symm)
    · exact not_mem_copyArgs _ inN outN s d (by decide) (by decide)
        (fun h => hin2 h.symm) (by decide) (by decide) (by decide) (fun h => hout2 h.symm)
    · exact not_mem_copyArgs _ inN outN s d (by decide) (by decide)
        (fun h => hin3 h.symm) (by decide) (by decide) (by decide) (fun h => hout3 h.symm)
    · exfalso
      rcases htr with h | h | h
      · rw [hcopy.2.1] at h
        exact absurd h (by decide)
      · rw [hcopy.2.2.1] at h
        exact absurd h (by decide)
      · exact absurd hcopy.2.2.2 h
  · have hx264 : Arg.lit "libx264" ∈ buildArgs mode prem inN outN s d := by
      rw [buildArgs, if_neg hcopy]
      by_cases hn : prem.normalize <;> by_cases hf : filterComplex2 prem ≠ "" <;>
        simp [hn, hf, List.mem_append]
    refine ⟨⟨fun hni => absurd hx264 hni, fun hco => absurd hco hcopy⟩,
      fun hco => absurd hco hcopy, fun htr => ⟨?_, hx264, hcopy⟩⟩
    by_cases hn : prem.normalize = true
    · right
      rw [buildArgs, if_neg hcopy]
      simp [hn, List.mem_append]
    · left
      have hn' : prem.normalize = false := by
        revert hn
        cases prem.normalize <;> simp
      have hvid : prem.resize = "9:16" ∨ prem.watermark ≠ "" := by
        rcases htr with h | h | h
        · exact Or.inl h
        · rw [hn'] at h
          exact absurd h (by decide)
        · exact Or.inr h
      have hfc := filterComplex2_ne_empty prem hvid
      rw [buildArgs, if_neg hcopy]
      simp [hn', hfc, List.mem_append]

theorem passthrough_selection_witness :
    let premCopy : Premium :=
      { watermark := "", resize := "none", normalize := false, quality := "Medium" }
    let premWm : Premium :=
      { watermark := "brand", resize := "none", normalize := false, quality := "Medium" }
    (Arg.lit "-filter_complex" ∉ buildArgs "copy" premCopy "in.mp4" "out.mp4" 0 30 ∧
      Arg.lit "-af" ∉ buildArgs "copy" premCopy "in.mp4" "out.mp4" 0 30) ∧
    ((Arg.lit "-filter_complex" ∈ buildArgs "copy" premWm "in.mp4" "out.mp4" 0 30 ∨
        Arg.lit "-af" ∈ buildArgs "copy" premWm "in.mp4" "out.mp4" 0 30) ∧
      Arg.lit "libx264" ∈ buildArgs "copy" premWm "in.mp4" "out.mp4" 0 30 ∧
      ¬("copy" = "copy" ∧ premWm.resize = "none" ∧ premWm.normalize = false ∧
        premWm.watermark = "")) := by
  intro premCopy premWm
  constructor
  · exact (passthrough_selection "copy" premCopy "in.mp4" "out.mp4" 0 30
      (by decide) (by decide) (by decide) (by decide) (by decide) (by decide)).2.1
      ⟨rfl, rfl, rfl, rfl⟩
  · exact (passthrough_selection "copy" premWm "in.mp4" "out.mp4" 0 30
      (by decide) (by decide) (by decide) (by decide) (by decide) (by decide)).2.2
      (Or.inr (Or.inr (by decide)))

end LoopVideo
